import Mathlib

/-!
Verification development for the VFS abstraction and transfer engine of a
dual-pane terminal file manager (`src/vfs.go`, `src/commands.go`).

Paths and archive keys are modelled as lists of characters, filesystem
contents as association lists from paths to byte lists, and the progress
fractions (Go `float64` values that are always exact ratios of small
integers here) as rationals.
-/

set_option autoImplicit false

namespace Ngt

/-- Paths, archive entry keys and message strings are character lists. -/
abbrev Path := List Char

/-- Path literal helper: the character list of a string literal. -/
def str (s : String) : Path := s.data

/-- Model of Go `strings.HasPrefix s pre`. -/
def hasPre : Path → Path → Bool
  | _, [] => true
  | [], _ :: _ => false
  | c :: s, d :: p => c == d && hasPre s p

/-- Model of Go `strings.TrimPrefix s pre`: drop `pre` when it leads `s`. -/
def trimPre (s pre : Path) : Path :=
  if hasPre s pre then s.drop pre.length else s

/-- Model of Go `filepath.Base`: strip trailing separators, then keep the
last component; empty input gives `"."`, all-separator input gives `"/"`. -/
def goBase (p : Path) : Path :=
  if p = [] then ['.']
  else
    let q := p.reverse.dropWhile (fun c => c == '/')
    if q = [] then ['/']
    else (q.takeWhile (fun c => c != '/')).reverse

/-- Model of Go `filepath.Join` on two already-clean arguments: empty parts
are dropped, the rest are separated by `'/'`. -/
def goJoin (a b : Path) : Path :=
  if a = [] then b else if b = [] then a else a ++ '/' :: b

/-- Backend-independent directory entry as the claims use it: the name the
`fs.DirEntry` reports and its `IsDir` flag. -/
structure Entry where
  name : Path
  isDir : Bool
deriving DecidableEq, Repr

/-- Domain errors of the model (§7 of the spec). `notFound` stands for
`fs.ErrNotExist` and the not-exist errors of `os` calls. -/
inductive FsError where
  | notFound
  | unsupported
  | transport
deriving DecidableEq, Repr

/-- Header data of one tar entry that the claims consume: the directory
flag (`Typeflag == tar.TypeDir`) and `hdr.Size`. -/
structure TarHeader where
  isDir : Bool
  size : Nat
deriving DecidableEq, Repr

/-- Model of `tarVFS` (vfs.go:84-88): the container path and the mount-time
index `entries` (`map[string]*tar.Header`, carried in iteration order), plus
the container's data stream `blobs` that `Open` re-scans. -/
structure TarVFS where
  filename : Path
  entries : List (Path × TarHeader)
  blobs : List (Path × List Nat)
deriving DecidableEq, Repr

/-- Model of `tarVFS.ReadDir` (vfs.go:124-137): keep indexed keys that
start with `TrimPrefix(dir, filename+"/") + "/"` and whose remainder has no
further separator; the entry is named `filepath.Base(name)` and flagged by
the header's type flag. Deeper keys are skipped without synthesis. -/
def TarVFS.readDir (t : TarVFS) (dir : Path) : List Entry :=
  let pre := trimPre dir (t.filename ++ ['/']) ++ ['/']
  t.entries.filterMap fun e =>
    if hasPre e.1 pre then
      if (e.1.drop pre.length).contains '/' then none
      else some (Entry.mk (goBase e.1) e.2.isDir)
    else none

/-- Model of `tarVFS.Open` (vfs.go:139-170): re-scan the container stream
for the first entry whose name equals `path`. -/
def TarVFS.openFile (t : TarVFS) (path : Path) : Except FsError (List Nat) :=
  match t.blobs.find? (fun b => b.1 == path) with
  | some b => Except.ok b.2
  | none => Except.error FsError.notFound

/-- Model of `tarVFS.Stat` (vfs.go:172-178): header lookup in the index;
missing keys give `fs.ErrNotExist`. -/
def TarVFS.stat (t : TarVFS) (path : Path) : Except FsError TarHeader :=
  match t.entries.lookup path with
  | some hdr => Except.ok hdr
  | none => Except.error FsError.notFound

/-- Model of `tarVFS.Chdir` (vfs.go:180-182): always `nil`, no state
change; the unchanged view is returned alongside. -/
def TarVFS.chdir (t : TarVFS) (_dir : Path) : TarVFS × Except FsError Unit :=
  (t, Except.ok ())

/-- Model of `tarVFS.Getwd` (vfs.go:184): the container path. -/
def TarVFS.getwd (t : TarVFS) : Path := t.filename

/-- Model of one `*zip.File` of `reader.File`: its key `f.Name`, the
directory flag its `FileInfo` reports, its uncompressed size and bytes. -/
structure ZipFileRec where
  name : Path
  isDir : Bool
  size : Nat
  content : List Nat
deriving DecidableEq, Repr

/-- Model of `zipVFS` (vfs.go:228-232): the container path and the central
directory `reader.File` in order. -/
structure ZipVFS where
  filename : Path
  files : List ZipFileRec
deriving DecidableEq, Repr

/-- One iteration of the `zipVFS.ReadDir` loop (vfs.go:256-274), acting on
the accumulator (seen synthesized directory names, entries so far). -/
def zipStep (pre : Path) (acc : List Path × List Entry) (f : ZipFileRec) :
    List Path × List Entry :=
  if hasPre f.name pre then
    let sfx := f.name.drop pre.length
    if sfx = [] then acc
    else
      match sfx.findIdx? (fun c => c == '/') with
      | some idx =>
          let d := sfx.take idx
          if acc.1.contains d then acc
          else (d :: acc.1, acc.2 ++ [Entry.mk d true])
      | none => (acc.1, acc.2 ++ [Entry.mk f.name false])
  else acc

/-- Model of `zipVFS.ReadDir` (vfs.go:252-276): keys starting with
`TrimPrefix(dir, filename+"/") + "/"` yield either a file entry named by
the full key (remainder separator-free) or a synthesized, de-duplicated
directory entry named by the remainder's first segment. -/
def ZipVFS.readDir (z : ZipVFS) (dir : Path) : List Entry :=
  let pre := trimPre dir (z.filename ++ ['/']) ++ ['/']
  (z.files.foldl (zipStep pre) ([], [])).2

/-- Model of `zipVFS.Open` (vfs.go:278-289): first record whose key equals
`path`, else `fs.ErrNotExist`. -/
def ZipVFS.openFile (z : ZipVFS) (path : Path) : Except FsError (List Nat) :=
  match z.files.find? (fun f => f.name == path) with
  | some f => Except.ok f.content
  | none => Except.error FsError.notFound

/-- Model of `zipVFS.Stat` (vfs.go:291-298): first record whose key equals
`path`, else `fs.ErrNotExist`. -/
def ZipVFS.stat (z : ZipVFS) (path : Path) : Except FsError ZipFileRec :=
  match z.files.find? (fun f => f.name == path) with
  | some f => Except.ok f
  | none => Except.error FsError.notFound

/-- Model of `zipVFS.Chdir` (vfs.go:300-302): always `nil`, no change. -/
def ZipVFS.chdir (z : ZipVFS) (_dir : Path) : ZipVFS × Except FsError Unit :=
  (z, Except.ok ())

/-- Model of `zipVFS.Getwd` (vfs.go:304): the container path. -/
def ZipVFS.getwd (z : ZipVFS) : Path := z.filename

/-- Panel-relative directory of an archive argument: the `ReadDir` helpers
of both archive backends strip the container path plus `"/"` from the
requested directory before matching index keys. -/
def archRel (filename dir : Path) : Path := trimPre dir (filename ++ ['/'])

/-- The local filesystem the engine mutates, as an association list from
paths to byte contents. Directories are not modelled: every batch claim
concerns regular files only (`copyFileVFS` rejects directories and the
claims' scenarios never copy one). -/
abbrev LocalFS := List (Path × List Nat)

/-- Content stored at `p`, or `none` when the path is absent. -/
def fsGet (fs : LocalFS) (p : Path) : Option (List Nat) :=
  (fs.find? (fun e => e.1 == p)).map (fun e => e.2)

/-- Model of `os.Create` plus a completed write: bind `p` to `c`,
replacing any previous binding. -/
def fsSet (fs : LocalFS) (p : Path) (c : List Nat) : LocalFS :=
  (p, c) :: fs.filter (fun e => e.1 != p)

/-- Model of `os.RemoveAll` on a regular file: drop the binding of `p`. -/
def fsRemove (fs : LocalFS) (p : Path) : LocalFS :=
  fs.filter (fun e => e.1 != p)

/-- Model of `os.Rename`: fails with a not-exist error when the source is
absent, otherwise moves the binding to the destination. -/
def fsRename (fs : LocalFS) (src dst : Path) : Except FsError LocalFS :=
  match fsGet fs src with
  | none => Except.error FsError.notFound
  | some c => Except.ok (fsSet (fsRemove fs src) dst c)

/-- The `vfsHandler` variant a panel is bound to (vfs.go:18-24). The remote
session itself is outside the model, so a remote panel only records that
every call would be a network round trip. -/
inductive Backend where
  | localB
  | sftpB
  | tarArch (t : TarVFS)
  | zipArch (z : ZipVFS)
deriving DecidableEq, Repr

/-- Model of a `panel` (model.go): its current directory, the selection map
`selectedFiles` as an association list in iteration order, and the bound
backend. -/
structure Panel where
  currentDir : Path
  selectedFiles : List (Path × Bool)
  vfs : Backend
deriving DecidableEq, Repr

/-- One notification on the progress or result channel: a `ProgressMsg`
fraction, or a `CommandResult` carrying an output string or an error. -/
inductive BatchMsg where
  | progress (percent : Rat)
  | resultOk (output : Path)
  | resultErr (e : FsError)
deriving DecidableEq, Repr

/-- Whether a message is a terminal result (a `CommandResult`). -/
def isResult : BatchMsg → Bool
  | BatchMsg.progress _ => false
  | BatchMsg.resultOk _ => true
  | BatchMsg.resultErr _ => true

/-- The fraction of a progress message, if it is one. -/
def progressOf : BatchMsg → Option Rat
  | BatchMsg.progress q => some q
  | _ => none

/-- Model of the loops `for f := range p.selectedFiles { if p.selectedFiles[f]
{ sources = append(sources, f) } }`: the keys mapped to `true`. -/
def selectedSources (sel : List (Path × Bool)) : List Path :=
  (sel.filter (fun e => e.2)).map (fun e => e.1)

/-- Source resolution shared by `copyWithProgress` and `moveWithProgress`
(commands.go:189-199, 263-274): the selection, or, when it is empty and an
explicit pair was given, `Join(currentDir, args[1])` with `args[2]` as the
destination directory; otherwise the other panel's current directory. -/
def resolveSources (p : Panel) (otherDir : Path) (args : List Path) :
    List Path × Path :=
  let sources := selectedSources p.selectedFiles
  if sources = [] ∧ 2 < args.length then
    ([goJoin p.currentDir (args.getD 1 [])], args.getD 2 [])
  else (sources, otherDir)

/-- The chunk loop of `copyFileVFS` (commands.go:243-258): read up to 4096
bytes, write them, and report `written / totalSize` after every non-empty
chunk. Returns the bytes written to the destination and the reported
fractions; `totalSize` is the size `Stat` reported when the file was
opened. -/
def copyLoop (rem : List Nat) (written totalSize : Nat) :
    List Nat × List Rat :=
  if h : rem = [] then ([], [])
  else
    let n := min 4096 rem.length
    let rest := copyLoop (rem.drop n) (written + n) totalSize
    (rem.take n ++ rest.1,
      (((written + n : Nat) : Rat) / ((totalSize : Nat) : Rat)) :: rest.2)
termination_by rem.length
decreasing_by
  simp only [List.length_drop]
  cases rem with
  | nil => exact absurd rfl h
  | cons a l => simp only [List.length_cons]; omega

/-- A source `Open` through the panel's backend, yielding the stream's byte
content. The local backend reads the model filesystem; archive backends
scan their container; a remote open is a network round trip outside the
model and is represented by its only modelled outcome, a transport fault. -/
def vfsOpen (b : Backend) (fs : LocalFS) (p : Path) :
    Except FsError (List Nat) :=
  match b with
  | Backend.localB =>
      match fsGet fs p with
      | some c => Except.ok c
      | none => Except.error FsError.notFound
  | Backend.sftpB => Except.error FsError.transport
  | Backend.tarArch t => t.openFile p
  | Backend.zipArch z => z.openFile p

/-- Model of `copyFileVFS` (commands.go:223-260): open the source through
the panel's backend (`s.Stat()` fixes `totalSize` at open time), then
`os.Create` truncates the destination in the local filesystem, and the
chunk loop streams whatever the open source handle yields from then on —
for a local source the file's content as it stands after the truncation
(empty when the destination aliases the source), for an archive source
the container's bytes, which local writes cannot touch. Each chunk is
reported as `written / totalSize`; a failed open is the job's error, and
no other fault arises in the model. -/
def copyFileVFS (srcB : Backend) (fs : LocalFS) (src dst : Path) :
    LocalFS × List Rat × Option FsError :=
  match vfsOpen srcB fs src with
  | Except.error e => (fs, [], some e)
  | Except.ok content =>
      let fs1 := fsSet fs dst []
      let stream := match vfsOpen srcB fs1 src with
        | Except.ok c => c
        | Except.error _ => []
      let r := copyLoop stream 0 content.length
      (fsSet fs1 dst r.1, r.2, none)

/-- The per-file jobs of `copyWithProgress` (commands.go:202-213): each
job copies `src → Join(dst, Base(src))` and re-emits every per-file
fraction `f` as the batch fraction `(i + f) / total`; `errgroup.Wait`
keeps the first error while every job still runs (join-all, no
cancellation). The Go jobs run concurrently against the one shared
filesystem; the model runs them in source order, with index `i`, over
that same single live filesystem. -/
def copyJobsLoop (srcB : Backend) (dst : Path) (total : Nat) :
    Nat → List Path → LocalFS → Option FsError →
      LocalFS × List BatchMsg × Option FsError
  | _, [], fs, fe => (fs, [], fe)
  | i, src :: rest, fs, fe =>
      let j := copyFileVFS srcB fs src (goJoin dst (goBase src))
      let msgs := j.2.1.map
        (fun f => BatchMsg.progress (((i : Nat) + f) / ((total : Nat) : Rat)))
      let r := copyJobsLoop srcB dst total (i + 1) rest j.1 (fe <|> j.2.2)
      (r.1, msgs ++ r.2.1, r.2.2)

/-- Outcome of one batch: the final local filesystem, the active panel as
the function leaves it, and every emitted notification in order. -/
structure EngineOut where
  fs : LocalFS
  panel : Panel
  msgs : List BatchMsg
deriving Repr

/-- The terminal result of a copy batch (commands.go:216-220): the first
job error when one exists, otherwise the success summary. -/
def terminalOf (o : Option FsError) (okMsg : Path) : BatchMsg :=
  match o with
  | some e => BatchMsg.resultErr e
  | none => BatchMsg.resultOk okMsg

/-- Model of `copyWithProgress` (commands.go:188-221): resolve the sources,
run one job per file, emit the unconditional `Percent: 1.0` tick, and emit
exactly one terminal result — the first job error if any job failed, else
the success summary. The function's `p` is a by-value copy of the panel
struct (`p := m.panels[m.activePanel]`, commands.go:190), so the clearing
assignment `p.selectedFiles = make(map[string]bool)` (commands.go:214)
rebinds only the copy's map field: the panel itself, returned here, keeps
its SelectionSet. -/
def copyWithProgress (fs : LocalFS) (p : Panel) (otherDir : Path)
    (args : List Path) : EngineOut :=
  let rs := resolveSources p otherDir args
  let r := copyJobsLoop p.vfs rs.2 rs.1.length 0 rs.1 fs none
  { fs := r.1
    panel := p
    msgs := (r.2.1 ++ [BatchMsg.progress 1]) ++
      [terminalOf r.2.2 (str "Copy completed")] }

/-- The loop of `moveWithProgress` (commands.go:276-284): rename each
source to `Join(dst, Base(src))` via the local filesystem, emitting
`(i+1)/total` after each success; the first failure emits the error as the
terminal result and returns at once. The flag reports whether the loop ran
to completion. -/
def moveLoop (dst : Path) (total : Nat) :
    Nat → List Path → LocalFS → LocalFS × List BatchMsg × Bool
  | _, [], fs => (fs, [], true)
  | i, src :: rest, fs =>
      match fsRename fs src (goJoin dst (goBase src)) with
      | Except.error e => (fs, [BatchMsg.resultErr e], false)
      | Except.ok fs' =>
          let r := moveLoop dst total (i + 1) rest fs'
          (r.1,
            BatchMsg.progress ((((i : Nat) : Rat) + 1) / ((total : Nat) : Rat))
              :: r.2.1,
            r.2.2)

/-- Model of `moveWithProgress` (commands.go:262-288): resolve the sources
and rename them one by one — unconditionally through the local filesystem,
whatever backend the panel is bound to. A loop that ran to completion emits
the final tick and success result; the early-return path stops at the
error. In either case the panel keeps its SelectionSet: `p` is a by-value
copy of the panel struct (commands.go:264), so the clearing assignment on
the success path (commands.go:285) rebinds only the copy's map field. -/
def moveWithProgress (fs : LocalFS) (p : Panel) (otherDir : Path)
    (args : List Path) : EngineOut :=
  let rs := resolveSources p otherDir args
  let r := moveLoop rs.2 rs.1.length 0 rs.1 fs
  if r.2.2 then
    { fs := r.1
      panel := p
      msgs := r.2.1 ++
        [BatchMsg.progress 1, BatchMsg.resultOk (str "Move completed")] }
  else
    { fs := r.1, panel := p, msgs := r.2.1 }

/-- The loop of `deleteWithProgress` (commands.go:299-302): best-effort
`os.RemoveAll` on every target, errors ignored, `(i+1)/total` after each. -/
def deleteLoop (total : Nat) :
    Nat → List Path → LocalFS → LocalFS × List BatchMsg
  | _, [], fs => (fs, [])
  | i, tgt :: rest, fs =>
      let r := deleteLoop total (i + 1) rest (fsRemove fs tgt)
      (r.1,
        BatchMsg.progress ((((i : Nat) : Rat) + 1) / ((total : Nat) : Rat))
          :: r.2)

/-- Model of `deleteWithProgress` (commands.go:290-305): delete every
selected target and emit the success summary as the single terminal result
(no final `1.0` tick is sent by this batch). The panel keeps its
SelectionSet: `p` is a by-value copy of the panel struct (commands.go:291),
so the clearing assignment (commands.go:303) rebinds only the copy's map
field. -/
def deleteWithProgress (fs : LocalFS) (p : Panel) : EngineOut :=
  let targets := selectedSources p.selectedFiles
  let r := deleteLoop targets.length 0 targets fs
  { fs := r.1
    panel := p
    msgs := r.2 ++ [BatchMsg.resultOk (str "Delete completed")] }

/-- Model of `mountArchive` for a tar container (commands.go:138-158): the
panel is re-bound to the archive view and its current directory becomes the
container's full path. -/
def mountTar (p : Panel) (t : TarVFS) : Panel :=
  { p with vfs := Backend.tarArch t, currentDir := t.filename }

/-- Model of `mountArchive` for a zip container (commands.go:138-158). -/
def mountZip (p : Panel) (z : ZipVFS) : Panel :=
  { p with vfs := Backend.zipArch z, currentDir := z.filename }

/-- The listing derivation exactly as the spec words it (§4.4), over the
indexed keys paired with their directory flags: strip `p ++ "/"` from
every indexed key, keep the remainders with no further separator as the
direct children, and synthesize a de-duplicated directory entry from the
first segment of every remainder that does contain a separator. -/
def specListDirectory (keys : List (Path × Bool)) (p : Path) : List Entry :=
  let rems := keys.filterMap fun k =>
    if hasPre k.1 (p ++ ['/']) then some (k.1.drop (p.length + 1), k.2)
    else none
  let children := (rems.filter (fun r => !r.1.contains '/')).map
    (fun r => Entry.mk r.1 r.2)
  let dirs := ((rems.filterMap
      (fun r => (r.1.findIdx? (fun c => c == '/')).map (r.1.take ·))).dedup).map
    (fun d => Entry.mk d true)
  children ++ dirs

/-- An entry the zip listing produces from a key whose remainder after the
listing prefix is non-empty and separator-free: a file entry carrying the
full key as its name. -/
def zipFileClause (pre : Path) (files : List ZipFileRec) (e : Entry) : Prop :=
  ∃ f ∈ files, hasPre f.name pre = true ∧ f.name.drop pre.length ≠ [] ∧
    (f.name.drop pre.length).findIdx? (fun c => c == '/') = none ∧
    e = Entry.mk f.name false

/-- An entry the zip listing synthesizes from a key whose remainder after
the listing prefix contains a separator: a directory entry named by the
remainder's first segment. -/
def zipDirClause (pre : Path) (files : List ZipFileRec) (e : Entry) : Prop :=
  ∃ f ∈ files, ∃ idx, hasPre f.name pre = true ∧
    (f.name.drop pre.length).findIdx? (fun c => c == '/') = some idx ∧
    e = Entry.mk ((f.name.drop pre.length).take idx) true

/-- Derived characterization of the zip listing relative to the
anchor-stripped directory `rel`: a direct-child file entry or a
synthesized directory entry. -/
def zipDerived (files : List ZipFileRec) (rel : Path) (e : Entry) : Prop :=
  zipFileClause (rel ++ ['/']) files e ∨ zipDirClause (rel ++ ['/']) files e

/-- Derived characterization of the tar listing relative to the
anchor-stripped directory `rel`: only keys whose remainder is
separator-free are kept, named by their base name; nothing is
synthesized from deeper keys. -/
def tarDerived (entries : List (Path × TarHeader)) (rel : Path)
    (e : Entry) : Prop :=
  ∃ k ∈ entries, hasPre k.1 (rel ++ ['/']) = true ∧
    (k.1.drop (rel ++ ['/']).length).contains '/' = false ∧
    e = Entry.mk (goBase k.1) k.2.isDir

/-- Recursive rendering of the tail the zip `ReadDir` fold appends for the
remaining records, given the synthesized names already seen. -/
def zipRest (pre : Path) : List ZipFileRec → List Path → List Entry
  | [], _ => []
  | f :: fs, seen =>
      if hasPre f.name pre then
        let sfx := f.name.drop pre.length
        if sfx = [] then zipRest pre fs seen
        else
          match sfx.findIdx? (fun c => c == '/') with
          | some idx =>
              let d := sfx.take idx
              if seen.contains d then zipRest pre fs seen
              else Entry.mk d true :: zipRest pre fs (d :: seen)
          | none => Entry.mk f.name false :: zipRest pre fs seen
      else zipRest pre fs seen

/-- Number of 4096-byte chunks the copy loop reads for a file of `len`
bytes. -/
def chunkCount (len : Nat) : Nat := (len + 4095) / 4096

/-- Closed form of the per-file fractions: after chunk `k` the loop has
written `min (4096 * (k+1)) len` of the file's `len` bytes. -/
def fileFracsSpec (len : Nat) : List Rat :=
  (List.range (chunkCount len)).map
    (fun k => ((min (4096 * (k + 1)) len : Nat) : Rat) / ((len : Nat) : Rat))

/-- Closed form of the whole batch progress stream for local sources whose
contents are read from `fs0` — under the disjointness hypothesis of the
theorem that uses it, the live filesystem agrees with the batch-start one
at every source: file number `i` re-emits each of its per-chunk fractions
`f` as `(i + f) / total`, and a missing source emits nothing. -/
def copyAggSpec (fs0 : LocalFS) (total : Nat) :
    Nat → List Path → List BatchMsg
  | _, [] => []
  | i, s :: rest =>
      (match fsGet fs0 s with
       | none => []
       | some c => (fileFracsSpec c.length).map
          (fun f => BatchMsg.progress (((i : Nat) + f) / ((total : Nat) : Rat))))
        ++ copyAggSpec fs0 total (i + 1) rest

/-- Tar fixture: container `/a.tar` whose only record is the deeper key
`d/e/f`. -/
def tarEx : TarVFS :=
  { filename := str "/a.tar"
    entries := [(str "d/e/f", { isDir := false, size := 1 })]
    blobs := [(str "d/e/f", [7])] }

/-- Zip fixture: container `/a.zip` whose only record is the deeper key
`d/e/f`; it has no explicit directory records. -/
def zipEx : ZipVFS :=
  { filename := str "/a.zip"
    files := [{ name := str "d/e/f", isDir := false, size := 3,
                content := [1, 2, 3] }] }

/-- Tar fixture with one direct child `d/x` under `d`. -/
def tarEx2 : TarVFS :=
  { filename := str "/b.tar"
    entries := [(str "d/x", { isDir := false, size := 2 })]
    blobs := [(str "d/x", [4, 5])] }

/-- Panel fixture: local backend, one selected path that does not exist. -/
def panelMissing : Panel :=
  { currentDir := str "/cur"
    selectedFiles := [(str "/cur/a", true)]
    vfs := Backend.localB }

/-- Panel fixture: local backend, one selected path that exists in
`fsOne`. -/
def panelOne : Panel :=
  { currentDir := str "/cur"
    selectedFiles := [(str "/cur/f", true)]
    vfs := Backend.localB }

/-- Filesystem fixture matching `panelOne`. -/
def fsOne : LocalFS := [(str "/cur/f", [1, 2])]

/-- Panel fixture: three selected sources of which `/s/x` is absent from
`fsTwo`. -/
def panelThree : Panel :=
  { currentDir := str "/s"
    selectedFiles := [(str "/s/a", true), (str "/s/x", true),
                      (str "/s/b", true)]
    vfs := Backend.localB }

/-- Filesystem fixture matching `panelThree`: `/s/x` is missing. -/
def fsTwo : LocalFS := [(str "/s/a", [1]), (str "/s/b", [2, 3])]

/-- Tar fixture for the move-from-archive scenario: container `/arc.tar`
holding the entry `data`. -/
def tarArcEx : TarVFS :=
  { filename := str "/arc.tar"
    entries := [(str "data", { isDir := false, size := 2 })]
    blobs := [(str "data", [5, 6])] }

/-- Panel fixture: bound to the tar archive backend with the entry's
anchored path selected, as marking the entry in the panel records it. -/
def panelArc : Panel :=
  { currentDir := str "/arc.tar"
    selectedFiles := [(str "/arc.tar/data", true)]
    vfs := Backend.tarArch tarArcEx }

theorem hasPre_length : ∀ (s p : Path), hasPre s p = true → p.length ≤ s.length
  | _, [], _ => Nat.zero_le _
  | [], _ :: _, h => by simp [hasPre] at h
  | c :: s, d :: p, h => by
      simp only [hasPre, Bool.and_eq_true] at h
      simpa using Nat.succ_le_succ (hasPre_length s p h.2)

theorem hasPre_append_slash (s : Path) : hasPre s (s ++ ['/']) = false := by
  cases h : hasPre s (s ++ ['/']) with
  | false => rfl
  | true =>
      have := hasPre_length s (s ++ ['/']) h
      simp at this

theorem trimPre_append_slash (s : Path) : trimPre s (s ++ ['/']) = s := by
  simp [trimPre, hasPre_append_slash]

theorem zipStep_skip {pre : Path} {acc : List Path × List Entry}
    {f : ZipFileRec} (h : hasPre f.name pre = false) :
    zipStep pre acc f = acc := by
  simp [zipStep, h]

theorem zip_foldl_skip (pre : Path) :
    ∀ (files : List ZipFileRec) (acc : List Path × List Entry),
      (∀ f ∈ files, hasPre f.name pre = false) →
      files.foldl (zipStep pre) acc = acc
  | [], _, _ => rfl
  | f :: fs, acc, h => by
      rw [List.foldl_cons, zipStep_skip (h f (List.mem_cons_self f fs))]
      exact zip_foldl_skip pre fs acc (fun g hg => h g (List.mem_cons_of_mem f hg))

/-- C10: for both archive backends, the children filter of `ReadDir`
computes its prefix from the requested directory's absolute anchor path
whenever that directory is the mount anchor itself, while the index keys
are container-relative names — so listing the anchor (which `mountArchive`
installs as the panel's current directory) returns no entries whenever no
indexed key happens to start with the anchor plus `"/"`. -/
theorem C10_anchor_listing_empty (p : Panel) (t : TarVFS) (z : ZipVFS)
    (ht : ∀ e ∈ t.entries, hasPre e.1 (t.filename ++ ['/']) = false)
    (hz : ∀ f ∈ z.files, hasPre f.name (z.filename ++ ['/']) = false) :
    (mountTar p t).currentDir = t.filename ∧
    t.readDir (mountTar p t).currentDir = [] ∧
    (mountZip p z).currentDir = z.filename ∧
    z.readDir (mountZip p z).currentDir = [] := by
  refine ⟨rfl, ?_, rfl, ?_⟩
  · show t.readDir t.filename = []
    simp only [TarVFS.readDir, trimPre_append_slash]
    exact List.filterMap_eq_nil_iff.mpr (fun e he => by simp [ht e he])
  · show z.readDir z.filename = []
    have h2 : z.files.foldl (zipStep (z.filename ++ ['/'])) ([], []) = ([], []) :=
      zip_foldl_skip _ _ _ hz
    simp only [ZipVFS.readDir, trimPre_append_slash, h2]

/-- Closed instance of `C10_anchor_listing_empty` at the concrete fixture
archives, whose keys are the container-relative `d/e/f`. -/
theorem C10_anchor_listing_empty_witness :
    (mountTar panelOne tarEx).currentDir = tarEx.filename ∧
    tarEx.readDir (mountTar panelOne tarEx).currentDir = [] ∧
    (mountZip panelOne zipEx).currentDir = zipEx.filename ∧
    zipEx.readDir (mountZip panelOne zipEx).currentDir = [] :=
  C10_anchor_listing_empty panelOne tarEx zipEx (by decide) (by decide)

/-- C7: `ChangeDirectory` on either archive backend always succeeds, and
the view (hence the value `CurrentDirectory` reports, the mount anchor) is
left unchanged. -/
theorem C7_archive_chdir_noop (t : TarVFS) (z : ZipVFS) (dir : Path) :
    (t.chdir dir).2 = Except.ok () ∧ (t.chdir dir).1 = t ∧
    (t.chdir dir).1.getwd = t.filename ∧
    (z.chdir dir).2 = Except.ok () ∧ (z.chdir dir).1 = z ∧
    (z.chdir dir).1.getwd = z.filename :=
  ⟨rfl, rfl, rfl, rfl, rfl, rfl⟩

/-- C5: evaluation at the failing input. A move whose source panel is
bound to a tar archive does not fail with `Unsupported`: the loop runs
`os.Rename` on the selected (archive-anchored) path against the real
filesystem. When no local file coincides with that path the batch ends
with the rename's not-exist error; when one does, the file is renamed and
the batch even reports success — state changes despite the archive-backed
source. The local-to-local half of the claim does hold: moving `/cur/f`
leaves the source absent and the destination byte-identical. -/
theorem C5_move_attempts_local_rename :
    (moveWithProgress [] panelArc (str "/other") []).msgs =
      [BatchMsg.resultErr FsError.notFound] ∧
    (moveWithProgress [(str "/arc.tar/data", [9])] panelArc
        (str "/other") []).fs = [(str "/other/data", [9])] ∧
    (moveWithProgress [(str "/arc.tar/data", [9])] panelArc
        (str "/other") []).msgs.getLast? =
      some (BatchMsg.resultOk (str "Move completed")) ∧
    fsGet (moveWithProgress fsOne panelOne (str "/other") []).fs
      (str "/cur/f") = none ∧
    fsGet (moveWithProgress fsOne panelOne (str "/other") []).fs
      (str "/other/f") = some [1, 2] := by
  decide

theorem isResult_terminalOf (o : Option FsError) (s : Path) :
    isResult (terminalOf o s) = true := by
  cases o <;> rfl

theorem isResult_progress (q : Rat) : isResult (BatchMsg.progress q) = false :=
  rfl

theorem copyJobsLoop_no_result (srcB : Backend) (dst : Path)
    (total : Nat) (l : List Path) :
    ∀ (i : Nat) (fs : LocalFS) (fe : Option FsError),
      (copyJobsLoop srcB dst total i l fs fe).2.1.countP isResult = 0 := by
  induction l with
  | nil => intro i fs fe; simp [copyJobsLoop]
  | cons s rest ih =>
      intro i fs fe
      simp [copyJobsLoop, List.countP_append, ih, List.countP_map,
        Function.comp, isResult, List.countP_eq_zero]

theorem deleteLoop_no_result (total : Nat) (l : List Path) :
    ∀ (i : Nat) (fs : LocalFS),
      (deleteLoop total i l fs).2.countP isResult = 0 := by
  induction l with
  | nil => intro i fs; simp [deleteLoop]
  | cons s rest ih =>
      intro i fs
      simp [deleteLoop, List.countP_cons, isResult, ih]

theorem moveLoop_msgs (dst : Path) (total : Nat) (l : List Path) :
    ∀ (i : Nat) (fs : LocalFS),
      ((moveLoop dst total i l fs).2.2 = true →
        (moveLoop dst total i l fs).2.1.countP isResult = 0) ∧
      ((moveLoop dst total i l fs).2.2 = false →
        (moveLoop dst total i l fs).2.1.countP isResult = 1 ∧
        ∃ e, (moveLoop dst total i l fs).2.1.getLast? =
          some (BatchMsg.resultErr e)) := by
  induction l with
  | nil => intro i fs; simp [moveLoop]
  | cons s rest ih =>
      intro i fs
      simp only [moveLoop]
      cases hr : fsRename fs s (goJoin dst (goBase s)) with
      | error e => simp [List.countP_cons, isResult]
      | ok fs' =>
          have h := ih (i + 1) fs'
          cases hflag : (moveLoop dst total (i + 1) rest fs').2.2 with
          | true =>
              refine ⟨fun _ => ?_, fun hf => Bool.noConfusion hf⟩
              simp [List.countP_cons, isResult, h.1 hflag]
          | false =>
              refine ⟨fun hf => Bool.noConfusion hf, fun _ => ?_⟩
              obtain ⟨hc, e, he⟩ := h.2 hflag
              refine ⟨by simp [List.countP_cons, isResult, hc], e, ?_⟩
              cases hm : (moveLoop dst total (i + 1) rest fs').2.1 with
              | nil => rw [hm] at he; simp at he
              | cons m ms =>
                  rw [hm] at he
                  simp only [hm, List.getLast?_cons_cons]
                  exact he

/-- C9: every batch function is a total function of its finite input (each
is defined by structural recursion over the resolved source list and, per
file, over the remaining bytes), and each run emits exactly one terminal
result notification. -/
theorem C9_single_terminal_result (fs : LocalFS) (p : Panel)
    (otherDir : Path) (args : List Path) :
    (copyWithProgress fs p otherDir args).msgs.countP isResult = 1 ∧
    (moveWithProgress fs p otherDir args).msgs.countP isResult = 1 ∧
    (deleteWithProgress fs p).msgs.countP isResult = 1 := by
  refine ⟨?_, ?_, ?_⟩
  · simp [copyWithProgress, List.countP_append, copyJobsLoop_no_result,
      List.countP_cons, isResult_progress, isResult_terminalOf]
  · have h := moveLoop_msgs (resolveSources p otherDir args).2
      (resolveSources p otherDir args).1.length
      (resolveSources p otherDir args).1 0 fs
    simp only [moveWithProgress]
    cases hflag : (moveLoop (resolveSources p otherDir args).2
        (resolveSources p otherDir args).1.length 0
        (resolveSources p otherDir args).1 fs).2.2 with
    | true =>
        simp [hflag, List.countP_append, List.countP_cons, isResult, h.1 hflag]
    | false =>
        simp [hflag, (h.2 hflag).1]
  · simp [deleteWithProgress, List.countP_append, deleteLoop_no_result,
      List.countP_cons, isResult]

/-- C1 fails as stated: a move batch whose first rename fails emits its
single terminal result (the error) and concludes with the panel's
SelectionSet still holding the selected path — and even a delete batch
that completes successfully leaves the SelectionSet in place, because
`deleteWithProgress` clears the map field of a by-value copy of the panel
(commands.go:291, 303), never the panel itself. -/
theorem C1_selection_never_cleared :
    (moveWithProgress [] panelMissing (str "/other") []).msgs =
      [BatchMsg.resultErr FsError.notFound] ∧
    (moveWithProgress [] panelMissing (str "/other") []).panel.selectedFiles =
      [(str "/cur/a", true)] ∧
    (moveWithProgress [] panelMissing
        (str "/other") []).panel.selectedFiles ≠ [] ∧
    (deleteWithProgress fsOne panelOne).msgs.getLast? =
      some (BatchMsg.resultOk (str "Delete completed")) ∧
    (deleteWithProgress fsOne panelOne).panel.selectedFiles =
      [(str "/cur/f", true)] := by
  decide

/-- C1 amended: every batch — copy, move or delete, successful or failed —
emits exactly one terminal result, but none of them ever clears the
panel's SelectionSet: the batch functions operate on a by-value copy of
the panel struct (commands.go:190, 264, 291), so the clearing assignments
(commands.go:214, 285, 303) rebind only the copy's map field and the
panel, selection included, comes out of the batch exactly as it went in. -/
theorem C1_batch_completion (fs : LocalFS) (p : Panel) (otherDir : Path)
    (args : List Path) :
    (copyWithProgress fs p otherDir args).msgs.countP isResult = 1 ∧
    (moveWithProgress fs p otherDir args).msgs.countP isResult = 1 ∧
    (deleteWithProgress fs p).msgs.countP isResult = 1 ∧
    (copyWithProgress fs p otherDir args).panel = p ∧
    (moveWithProgress fs p otherDir args).panel = p ∧
    (deleteWithProgress fs p).panel = p := by
  have hmv := moveLoop_msgs (resolveSources p otherDir args).2
    (resolveSources p otherDir args).1.length
    (resolveSources p otherDir args).1 0 fs
  refine ⟨?_, ?_, ?_, rfl, ?_, rfl⟩
  · simp [copyWithProgress, List.countP_append, copyJobsLoop_no_result,
      List.countP_cons, isResult_progress, isResult_terminalOf]
  · simp only [moveWithProgress]
    cases hflag : (moveLoop (resolveSources p otherDir args).2
        (resolveSources p otherDir args).1.length 0
        (resolveSources p otherDir args).1 fs).2.2 with
    | true =>
        simp [hflag, List.countP_append, List.countP_cons, isResult,
          hmv.1 hflag]
    | false => simp [hflag, (hmv.2 hflag).1]
  · simp [deleteWithProgress, List.countP_append, deleteLoop_no_result,
      List.countP_cons, isResult]
  · simp only [moveWithProgress]
    cases hflag : (moveLoop (resolveSources p otherDir args).2
        (resolveSources p otherDir args).1.length 0
        (resolveSources p otherDir args).1 fs).2.2 with
    | true => simp [hflag]
    | false => simp [hflag]

theorem copyLoop_writes (rem : List Nat) (w t : Nat) :
    (copyLoop rem w t).1 = rem := by
  rw [copyLoop]
  split
  · simp [*]
  · simp only []
    rw [copyLoop_writes (rem.drop (min 4096 rem.length))
      (w + min 4096 rem.length) t]
    exact List.take_append_drop _ rem
termination_by rem.length
decreasing_by
  simp only [List.length_drop]
  have hne : rem ≠ [] := by assumption
  have hpos : 0 < rem.length := List.length_pos.mpr hne
  omega

theorem natCastDiv_mono (a b t : Nat) (hab : a ≤ b) :
    ((a : Nat) : Rat) / ((t : Nat) : Rat) ≤ ((b : Nat) : Rat) / ((t : Nat) : Rat) := by
  rcases Nat.eq_zero_or_pos t with rfl | ht
  · simp
  · exact (div_le_div_right (by exact_mod_cast ht)).mpr (by exact_mod_cast hab)

theorem copyLoop_fracs_nonneg (rem : List Nat) (w t : Nat) :
    ∀ q ∈ (copyLoop rem w t).2, 0 ≤ q := by
  rw [copyLoop]
  split
  · simp
  · simp only [List.mem_cons]
    intro q hq
    rcases hq with rfl | hq
    · exact div_nonneg (Nat.cast_nonneg _) (Nat.cast_nonneg _)
    · exact copyLoop_fracs_nonneg (rem.drop (min 4096 rem.length))
        (w + min 4096 rem.length) t q hq
termination_by rem.length
decreasing_by
  simp only [List.length_drop]
  have hne : rem ≠ [] := by assumption
  have hpos : 0 < rem.length := List.length_pos.mpr hne
  omega

theorem copyLoop_fracs_le_one (rem : List Nat) (w t : Nat)
    (hle : w + rem.length ≤ t) : ∀ q ∈ (copyLoop rem w t).2, q ≤ 1 := by
  rw [copyLoop]
  split
  · simp
  · rename_i hne
    simp only [List.mem_cons]
    intro q hq
    have hpos : 0 < rem.length := List.length_pos.mpr hne
    rcases hq with rfl | hq
    · rw [div_le_one (by exact_mod_cast (show 0 < t by omega))]
      exact_mod_cast (show w + min 4096 rem.length ≤ t by omega)
    · exact copyLoop_fracs_le_one (rem.drop (min 4096 rem.length))
        (w + min 4096 rem.length) t
        (by simp only [List.length_drop]; omega) q hq
termination_by rem.length
decreasing_by
  simp only [List.length_drop]
  omega

theorem copyLoop_fracs_lb (rem : List Nat) (w t : Nat) :
    ∀ q ∈ (copyLoop rem w t).2, ((w : Nat) : Rat) / ((t : Nat) : Rat) ≤ q := by
  rw [copyLoop]
  split
  · simp
  · simp only [List.mem_cons]
    intro q hq
    rcases hq with rfl | hq
    · exact natCastDiv_mono w (w + min 4096 rem.length) t (Nat.le_add_right _ _)
    · exact le_trans
        (natCastDiv_mono w (w + min 4096 rem.length) t (Nat.le_add_right _ _))
        (copyLoop_fracs_lb (rem.drop (min 4096 rem.length))
          (w + min 4096 rem.length) t q hq)
termination_by rem.length
decreasing_by
  simp only [List.length_drop]
  have hne : rem ≠ [] := by assumption
  have hpos : 0 < rem.length := List.length_pos.mpr hne
  omega

theorem copyLoop_fracs_chain (rem : List Nat) (w t : Nat) :
    List.Chain' (fun a b => a ≤ b) (copyLoop rem w t).2 := by
  rw [copyLoop]
  split
  · simp
  · simp only []
    rw [List.chain'_cons']
    refine ⟨fun b hb => ?_, copyLoop_fracs_chain
      (rem.drop (min 4096 rem.length)) (w + min 4096 rem.length) t⟩
    exact copyLoop_fracs_lb _ _ _ b (List.mem_of_mem_head? hb)
termination_by rem.length
decreasing_by
  all_goals
    simp only [List.length_drop]
    have hne : rem ≠ [] := by assumption
    have hpos : 0 < rem.length := List.length_pos.mpr hne
    omega

theorem fsGet_fsSet_self (fs : LocalFS) (p : Path) (c : List Nat) :
    fsGet (fsSet fs p c) p = some c := by
  simp [fsGet, fsSet, List.find?]

theorem find?_filter_ne (fs : LocalFS) (p q : Path) (hne : q ≠ p) :
    List.find? (fun e => e.1 == q) (fs.filter (fun e => e.1 != p)) =
      List.find? (fun e => e.1 == q) fs := by
  induction fs with
  | nil => rfl
  | cons e rest ih =>
      by_cases hep : e.1 = p
      · have h2 : (p == q) = false := by
          simp only [beq_eq_false_iff_ne, ne_eq]
          exact fun hpq => hne hpq.symm
        simp [List.filter_cons, hep, List.find?_cons, h2, ih]
      · cases hq : (e.1 == q) with
        | true => simp [List.filter_cons, hep, List.find?_cons, hq]
        | false => simp [List.filter_cons, hep, List.find?_cons, hq, ih]

theorem fsGet_fsSet_ne (fs : LocalFS) (p q : Path) (c : List Nat)
    (hne : q ≠ p) : fsGet (fsSet fs p c) q = fsGet fs q := by
  have h0 : ((p, c).1 == q) = false := by
    simp only [beq_eq_false_iff_ne, ne_eq]
    exact fun hpq => hne hpq.symm
  simp [fsGet, fsSet, List.find?_cons, h0, find?_filter_ne fs p q hne]

theorem vfsOpen_after_trunc (srcB : Backend) (fs : LocalFS) (src dst : Path)
    (c : List Nat) (h : vfsOpen srcB fs src = Except.ok c) :
    vfsOpen srcB (fsSet fs dst []) src = Except.ok c ∨
    vfsOpen srcB (fsSet fs dst []) src = Except.ok [] := by
  cases srcB with
  | localB =>
      by_cases hsd : src = dst
      · subst hsd
        right
        simp [vfsOpen, fsGet_fsSet_self]
      · left
        simp only [vfsOpen] at h ⊢
        rw [fsGet_fsSet_ne fs dst src [] hsd]
        exact h
  | sftpB => simp [vfsOpen] at h
  | tarArch t => left; exact h
  | zipArch z => left; exact h

theorem copyFileVFS_fs_frame (srcB : Backend) (fs : LocalFS)
    (src dst q : Path) (hq : q ≠ dst) :
    fsGet (copyFileVFS srcB fs src dst).1 q = fsGet fs q := by
  unfold copyFileVFS
  cases vfsOpen srcB fs src with
  | error e => rfl
  | ok c =>
      simp only []
      rw [fsGet_fsSet_ne _ _ _ _ hq, fsGet_fsSet_ne _ _ _ _ hq]

theorem copyJobsLoop_progress_bounds (srcB : Backend)
    (dst : Path) (total : Nat) (l : List Path) :
    ∀ (i : Nat) (fs : LocalFS) (fe : Option FsError), i + l.length ≤ total →
      ∀ q, BatchMsg.progress q ∈
          (copyJobsLoop srcB dst total i l fs fe).2.1 →
        0 ≤ q ∧ q ≤ 1 := by
  induction l with
  | nil => intro i fs fe _ q hq; simp [copyJobsLoop] at hq
  | cons s rest ih =>
      intro i fs fe hle q hq
      simp only [copyJobsLoop, List.mem_append] at hq
      rcases hq with hq | hq
      · obtain ⟨f, hf, hqe⟩ := List.mem_map.mp hq
        obtain rfl : ((i : Nat) + f) / ((total : Nat) : Rat) = q := by
          simpa using hqe
        have hfb : 0 ≤ f ∧ f ≤ 1 := by
          revert hf
          unfold copyFileVFS
          cases hv : vfsOpen srcB fs s with
          | error e => intro hf; simp at hf
          | ok c =>
              rcases vfsOpen_after_trunc srcB fs s (goJoin dst (goBase s))
                c hv with h2 | h2
              · simp only [h2]
                intro hf
                exact ⟨copyLoop_fracs_nonneg c 0 c.length f hf,
                  copyLoop_fracs_le_one c 0 c.length (by simp) f hf⟩
              · simp only [h2]
                intro hf
                exact ⟨copyLoop_fracs_nonneg [] 0 c.length f hf,
                  copyLoop_fracs_le_one [] 0 c.length (by simp) f hf⟩
        constructor
        · exact div_nonneg (add_nonneg (Nat.cast_nonneg i) hfb.1)
            (Nat.cast_nonneg _)
        · rcases Nat.eq_zero_or_pos total with rfl | ht
          · simp
          · rw [div_le_one (by exact_mod_cast ht)]
            have : ((i : Nat) : Rat) + 1 ≤ ((total : Nat) : Rat) := by
              exact_mod_cast (show i + 1 ≤ total by
                simp only [List.length_cons] at hle; omega)
            linarith [hfb.2]
      · exact ih (i + 1) _ _ (by simp only [List.length_cons] at hle; omega) q hq

/-- C6: in every copy batch each emitted progress fraction lies in
`[0, 1]`, the last progress value of the batch is exactly `1`, and within
one file the per-chunk fractions `written / size` are monotonically
non-decreasing. -/
theorem C6_progress_bounds (fs : LocalFS) (p : Panel) (otherDir : Path)
    (args : List Path) :
    (∀ q, BatchMsg.progress q ∈ (copyWithProgress fs p otherDir args).msgs →
      0 ≤ q ∧ q ≤ 1) ∧
    ((copyWithProgress fs p otherDir args).msgs.filterMap
        progressOf).getLast? = some 1 ∧
    (∀ content : List Nat,
      List.Chain' (fun a b => a ≤ b) (copyLoop content 0 content.length).2) := by
  refine ⟨?_, ?_, fun content => copyLoop_fracs_chain content 0 content.length⟩
  · intro q hq
    simp only [copyWithProgress, List.mem_append, List.mem_singleton] at hq
    rcases hq with (hq | hq) | hq
    · exact copyJobsLoop_progress_bounds p.vfs
        (resolveSources p otherDir args).2
        (resolveSources p otherDir args).1.length
        (resolveSources p otherDir args).1 0 fs none (by omega) q hq
    · obtain rfl : q = 1 := by simpa using hq
      norm_num
    · exfalso
      revert hq
      unfold terminalOf
      cases (copyJobsLoop p.vfs (resolveSources p otherDir args).2
          (resolveSources p otherDir args).1.length 0
          (resolveSources p otherDir args).1 fs none).2.2 with
      | none => simp
      | some e => simp
  · simp only [copyWithProgress, List.filterMap_append]
    have hterm : List.filterMap progressOf
        [terminalOf (copyJobsLoop p.vfs (resolveSources p otherDir args).2
          (resolveSources p otherDir args).1.length 0
          (resolveSources p otherDir args).1 fs none).2.2
          (str "Copy completed")] = [] := by
      unfold terminalOf
      cases (copyJobsLoop p.vfs (resolveSources p otherDir args).2
          (resolveSources p otherDir args).1.length 0
          (resolveSources p otherDir args).1 fs none).2.2 with
      | none => simp [progressOf]
      | some e => simp [progressOf]
    rw [hterm, List.append_nil]
    have h1 : List.filterMap progressOf [BatchMsg.progress 1] = [1] := rfl
    rw [h1, List.getLast?_concat]

/-- Closed instance of `C6_progress_bounds` at a concrete batch: the
always-emitted final tick `1` lies in `[0, 1]`. -/
theorem C6_progress_bounds_witness : (0 : Rat) ≤ 1 ∧ (1 : Rat) ≤ 1 :=
  (C6_progress_bounds fsOne panelOne (str "/other") []).1 1
    (by simp [copyWithProgress])

theorem copyLoop_fracs_spec (rem : List Nat) (w t : Nat) :
    (copyLoop rem w t).2 = (List.range (chunkCount rem.length)).map
      (fun k => ((w + min (4096 * (k + 1)) rem.length : Nat) : Rat) /
        ((t : Nat) : Rat)) := by
  rw [copyLoop]
  split
  · rename_i h; rw [h]; simp [chunkCount]
  · rename_i h
    simp only []
    have hpos : 0 < rem.length := List.length_pos.mpr h
    have hcc : chunkCount rem.length =
        chunkCount (rem.length - min 4096 rem.length) + 1 := by
      unfold chunkCount; omega
    rw [copyLoop_fracs_spec (rem.drop (min 4096 rem.length))
      (w + min 4096 rem.length) t]
    rw [hcc, List.range_succ_eq_map]
    simp only [List.map_cons, List.map_map, List.length_drop]
    congr 1
    apply List.map_congr_left
    intro k _
    simp only [Function.comp, Nat.succ_eq_add_one]
    congr 1
    exact congrArg (fun n : Nat => ((n : Nat) : Rat)) (by omega)
termination_by rem.length
decreasing_by
  simp only [List.length_drop]
  have hne : rem ≠ [] := by assumption
  have hpos : 0 < rem.length := List.length_pos.mpr hne
  omega

theorem copyLoop_fracs_zero (c : List Nat) :
    (copyLoop c 0 c.length).2 = fileFracsSpec c.length := by
  rw [copyLoop_fracs_spec]
  unfold fileFracsSpec
  apply List.map_congr_left
  intro k _
  norm_num

theorem copyAggSpec_congr (total : Nat) (l : List Path) :
    ∀ (i : Nat) (fs1 fs2 : LocalFS),
      (∀ s ∈ l, fsGet fs1 s = fsGet fs2 s) →
      copyAggSpec fs1 total i l = copyAggSpec fs2 total i l := by
  induction l with
  | nil => intro i fs1 fs2 _; rfl
  | cons s rest ih =>
      intro i fs1 fs2 h
      simp only [copyAggSpec]
      rw [h s (List.mem_cons_self s rest),
        ih (i + 1) fs1 fs2 (fun u hu => h u (List.mem_cons_of_mem s hu))]

theorem copyJobsLoop_msgs_spec (dst : Path) (total : Nat) (l : List Path) :
    ∀ (i : Nat) (fs : LocalFS) (fe : Option FsError),
      (∀ s ∈ l, ∀ s' ∈ l, goJoin dst (goBase s') ≠ s) →
      (copyJobsLoop Backend.localB dst total i l fs fe).2.1 =
        copyAggSpec fs total i l := by
  induction l with
  | nil => intro i fs fe _; rfl
  | cons s rest ih =>
      intro i fs fe hsrc
      have hsrc' : ∀ u ∈ rest, ∀ u' ∈ rest, goJoin dst (goBase u') ≠ u :=
        fun u hu u' hu' => hsrc u (List.mem_cons_of_mem s hu) u'
          (List.mem_cons_of_mem s hu')
      simp only [copyJobsLoop, copyAggSpec]
      cases hg : fsGet fs s with
      | none =>
          have hj : copyFileVFS Backend.localB fs s (goJoin dst (goBase s)) =
              (fs, [], some FsError.notFound) := by
            simp only [copyFileVFS, vfsOpen, hg]
          simp only [hj, List.map_nil, List.nil_append]
          exact ih (i + 1) fs _ hsrc'
      | some c =>
          have hs1 : vfsOpen Backend.localB fs s = Except.ok c := by
            simp only [vfsOpen, hg]
          have hne0 : s ≠ goJoin dst (goBase s) :=
            Ne.symm (hsrc s (List.mem_cons_self s rest) s
              (List.mem_cons_self s rest))
          have hs2 : vfsOpen Backend.localB
              (fsSet fs (goJoin dst (goBase s)) []) s = Except.ok c := by
            simp only [vfsOpen,
              fsGet_fsSet_ne fs (goJoin dst (goBase s)) s [] hne0, hg]
          have hj : copyFileVFS Backend.localB fs s (goJoin dst (goBase s)) =
              (fsSet (fsSet fs (goJoin dst (goBase s)) [])
                (goJoin dst (goBase s)) c,
               (copyLoop c 0 c.length).2, none) := by
            simp only [copyFileVFS, hs1, hs2, copyLoop_writes]
          simp only [hj, copyLoop_fracs_zero]
          congr 1
          rw [ih (i + 1) _ _ hsrc']
          refine copyAggSpec_congr total rest (i + 1) _ _ (fun u hu => ?_)
          have hne : u ≠ goJoin dst (goBase s) :=
            Ne.symm (hsrc u (List.mem_cons_of_mem s hu) s
              (List.mem_cons_self s rest))
          rw [fsGet_fsSet_ne _ _ _ _ hne, fsGet_fsSet_ne _ _ _ _ hne]

/-- C8: with local sources none of which is aliased by a destination
(no `Join(dst, Base(src))` equals a source path, the claim's distinct
source and destination directories), the emitted aggregate after chunk `k`
of file number `i` is exactly `(i + f) / total_files`, where `f` is the
file's own fraction `min (4096*(k+1)) size / size` — a file-count-weighted
average in which the byte sizes of the other files never appear. -/
theorem C8_aggregate_formula (fs : LocalFS) (p : Panel) (otherDir : Path)
    (args : List Path) (hloc : p.vfs = Backend.localB)
    (hsrc : ∀ s ∈ (resolveSources p otherDir args).1,
      ∀ s' ∈ (resolveSources p otherDir args).1,
        goJoin (resolveSources p otherDir args).2 (goBase s') ≠ s) :
    (∃ r, (copyWithProgress fs p otherDir args).msgs =
      copyAggSpec fs (resolveSources p otherDir args).1.length 0
        (resolveSources p otherDir args).1 ++ [BatchMsg.progress 1, r]) ∧
    (∀ c : List Nat, (copyLoop c 0 c.length).2 = fileFracsSpec c.length) := by
  refine ⟨⟨terminalOf (copyJobsLoop Backend.localB
      (resolveSources p otherDir args).2
      (resolveSources p otherDir args).1.length 0
      (resolveSources p otherDir args).1 fs none).2.2
      (str "Copy completed"), ?_⟩, copyLoop_fracs_zero⟩
  simp only [copyWithProgress, hloc]
  rw [copyJobsLoop_msgs_spec (resolveSources p otherDir args).2
    (resolveSources p otherDir args).1.length
    (resolveSources p otherDir args).1 0 fs none hsrc]
  simp

/-- Closed instance of `C8_aggregate_formula` at a concrete three-file
batch over local sources with destination directory `/d`. -/
theorem C8_aggregate_formula_witness :
    ∃ r, (copyWithProgress fsTwo panelThree (str "/d") []).msgs =
      copyAggSpec fsTwo (resolveSources panelThree (str "/d") []).1.length 0
        (resolveSources panelThree (str "/d") []).1 ++
        [BatchMsg.progress 1, r] :=
  (C8_aggregate_formula fsTwo panelThree (str "/d") [] rfl (by decide)).1

theorem dropWhile_head_false {α : Type} (pr : α → Bool) :
    ∀ (l : List α) (a : α) (t : List α),
      l.dropWhile pr = a :: t → pr a = false
  | [], a, t, h => by simp at h
  | b :: l, a, t, h => by
      rw [List.dropWhile_cons] at h
      by_cases hb : pr b = true
      · rw [if_pos hb] at h
        exact dropWhile_head_false pr l a t h
      · rw [if_neg hb] at h
        cases h
        exact Bool.eq_false_iff.mpr hb

theorem goBase_ne_nil (p : Path) : goBase p ≠ [] := by
  unfold goBase
  by_cases hp : p = []
  · simp [hp]
  · rw [if_neg hp]
    simp only []
    by_cases hq : p.reverse.dropWhile (fun c => c == '/') = []
    · rw [if_pos hq]; simp
    · rw [if_neg hq]
      cases hd : (p.reverse.dropWhile (fun c => c == '/')) with
      | nil => exact absurd hd hq
      | cons a t =>
          have ha := dropWhile_head_false (fun c => c == '/') p.reverse a t hd
          rw [List.takeWhile_cons]
          have hab : (a != '/') = true := by
            simp only [bne_iff_ne, ne_eq]
            intro heq
            rw [heq] at ha
            simp at ha
          rw [if_pos hab]
          simp

theorem goJoin_right_inj (d x y : Path) (hx : x ≠ []) (hy : y ≠ [])
    (h : goJoin d x = goJoin d y) : x = y := by
  unfold goJoin at h
  by_cases hd : d = []
  · rwa [if_pos hd, if_pos hd] at h
  · rw [if_neg hd, if_neg hd, if_neg hx, if_neg hy] at h
    have := List.append_cancel_left h
    injection this

theorem copyJobsLoop_err_notFound (dst : Path) (total : Nat)
    (l : List Path) :
    ∀ (i : Nat) (fs : LocalFS) (fe : Option FsError),
      (∀ s ∈ l, ∀ s' ∈ l, goJoin dst (goBase s') ≠ s) →
      (fe = none ∨ fe = some FsError.notFound) →
      (fe = some FsError.notFound ∨ ∃ s ∈ l, fsGet fs s = none) →
      (copyJobsLoop Backend.localB dst total i l fs fe).2.2 =
        some FsError.notFound := by
  induction l with
  | nil =>
      intro i fs fe _ _ hsome
      rcases hsome with hsome | ⟨s, hs, _⟩
      · simpa [copyJobsLoop] using hsome
      · simp at hs
  | cons s rest ih =>
      intro i fs fe hsrc hwf hsome
      have hsrc' : ∀ u ∈ rest, ∀ u' ∈ rest, goJoin dst (goBase u') ≠ u :=
        fun u hu u' hu' => hsrc u (List.mem_cons_of_mem s hu) u'
          (List.mem_cons_of_mem s hu')
      simp only [copyJobsLoop]
      cases hg : fsGet fs s with
      | none =>
          have hj : copyFileVFS Backend.localB fs s (goJoin dst (goBase s)) =
              (fs, [], some FsError.notFound) := by
            simp only [copyFileVFS, vfsOpen, hg]
          simp only [hj]
          apply ih _ _ _ hsrc'
          · right; rcases hwf with rfl | rfl <;> rfl
          · left; rcases hwf with rfl | rfl <;> rfl
      | some c =>
          have hs1 : vfsOpen Backend.localB fs s = Except.ok c := by
            simp only [vfsOpen, hg]
          have hne0 : s ≠ goJoin dst (goBase s) :=
            Ne.symm (hsrc s (List.mem_cons_self s rest) s
              (List.mem_cons_self s rest))
          have hs2 : vfsOpen Backend.localB
              (fsSet fs (goJoin dst (goBase s)) []) s = Except.ok c := by
            simp only [vfsOpen,
              fsGet_fsSet_ne fs (goJoin dst (goBase s)) s [] hne0, hg]
          have hj : copyFileVFS Backend.localB fs s (goJoin dst (goBase s)) =
              (fsSet (fsSet fs (goJoin dst (goBase s)) [])
                (goJoin dst (goBase s)) c,
               (copyLoop c 0 c.length).2, none) := by
            simp only [copyFileVFS, hs1, hs2, copyLoop_writes]
          simp only [hj]
          have horl : (fe <|> (none : Option FsError)) = fe := by
            cases fe <;> rfl
          rw [horl]
          apply ih _ _ _ hsrc' hwf
          rcases hsome with hsome | ⟨s', hs', hmiss⟩
          · left; exact hsome
          · rcases List.mem_cons.mp hs' with rfl | hs''
            · rw [hg] at hmiss; exact absurd hmiss (by simp)
            · right
              refine ⟨s', hs'', ?_⟩
              have hne : s' ≠ goJoin dst (goBase s) :=
                Ne.symm (hsrc s' (List.mem_cons_of_mem s hs'') s
                  (List.mem_cons_self s rest))
              rw [fsGet_fsSet_ne _ _ _ _ hne, fsGet_fsSet_ne _ _ _ _ hne]
              exact hmiss

theorem copyJobsLoop_fs_frame (srcB : Backend) (dst : Path)
    (total : Nat) (l : List Path) :
    ∀ (i : Nat) (fs : LocalFS) (fe : Option FsError) (q : Path),
      (∀ s ∈ l, goJoin dst (goBase s) ≠ q) →
      fsGet (copyJobsLoop srcB dst total i l fs fe).1 q = fsGet fs q := by
  induction l with
  | nil => intro i fs fe q _; rfl
  | cons s rest ih =>
      intro i fs fe q hq
      simp only [copyJobsLoop]
      rw [ih (i + 1) _ _ q (fun s' hs' => hq s' (List.mem_cons_of_mem s hs'))]
      exact copyFileVFS_fs_frame srcB fs s (goJoin dst (goBase s)) q
        (fun he => hq s (List.mem_cons_self s rest) he.symm)

theorem copyJobsLoop_fs_write (dst : Path) (total : Nat) (l : List Path) :
    l.Pairwise (fun a b => goJoin dst (goBase a) ≠ goJoin dst (goBase b)) →
    (∀ s ∈ l, ∀ s' ∈ l, goJoin dst (goBase s') ≠ s) →
    ∀ (i : Nat) (fs : LocalFS) (fe : Option FsError) (s : Path)
      (c : List Nat), s ∈ l → fsGet fs s = some c →
      fsGet (copyJobsLoop Backend.localB dst total i l fs fe).1
        (goJoin dst (goBase s)) = some c := by
  induction l with
  | nil => intro _ _ i fs fe s c hs; simp at hs
  | cons h rest ih =>
      intro hpw hsrc i fs fe s c hs hc
      rcases List.pairwise_cons.mp hpw with ⟨hhead, htail⟩
      have hsrc' : ∀ u ∈ rest, ∀ u' ∈ rest, goJoin dst (goBase u') ≠ u :=
        fun u hu u' hu' => hsrc u (List.mem_cons_of_mem h hu) u'
          (List.mem_cons_of_mem h hu')
      rcases List.mem_cons.mp hs with rfl | hs
      · have hs1 : vfsOpen Backend.localB fs s = Except.ok c := by
          simp only [vfsOpen, hc]
        have hne0 : s ≠ goJoin dst (goBase s) :=
          Ne.symm (hsrc s (List.mem_cons_self s rest) s
            (List.mem_cons_self s rest))
        have hs2 : vfsOpen Backend.localB
            (fsSet fs (goJoin dst (goBase s)) []) s = Except.ok c := by
          simp only [vfsOpen,
            fsGet_fsSet_ne fs (goJoin dst (goBase s)) s [] hne0, hc]
        have hj : copyFileVFS Backend.localB fs s (goJoin dst (goBase s)) =
            (fsSet (fsSet fs (goJoin dst (goBase s)) [])
              (goJoin dst (goBase s)) c,
             (copyLoop c 0 c.length).2, none) := by
          simp only [copyFileVFS, hs1, hs2, copyLoop_writes]
        simp only [copyJobsLoop, hj]
        rw [copyJobsLoop_fs_frame Backend.localB dst total rest (i + 1)
          _ _ (goJoin dst (goBase s))
          (fun s' hs' he => hhead s' hs' he.symm)]
        exact fsGet_fsSet_self _ (goJoin dst (goBase s)) c
      · have hne1 : s ≠ goJoin dst (goBase h) :=
          Ne.symm (hsrc s (List.mem_cons_of_mem h hs) h
            (List.mem_cons_self h rest))
        have hc' : fsGet (copyFileVFS Backend.localB fs h
            (goJoin dst (goBase h))).1 s = some c := by
          rw [copyFileVFS_fs_frame Backend.localB fs h
            (goJoin dst (goBase h)) s hne1]
          exact hc
        simp only [copyJobsLoop]
        exact ih htail hsrc' (i + 1) _ _ s c hs hc'

/-- C4: a copy batch whose sources are local paths with pairwise-distinct
base names, exactly one of which is absent, still copies every other
source to `Join(dst, Base(src))` with identical content (join-all, no
rollback), and its single terminal result carries that source's not-found
error — the only error of the batch, hence the first. -/
theorem C4_copy_join_all_first_error (fs : LocalFS) (p : Panel)
    (otherDir : Path) (args : List Path) (A B : List Path) (sj : Path)
    (dst : Path)
    (hres : resolveSources p otherDir args = (A ++ sj :: B, dst))
    (hloc : p.vfs = Backend.localB)
    (hmiss : fsGet fs sj = none)
    (hdst : (A ++ sj :: B).Pairwise (fun a b => goBase a ≠ goBase b))
    (hsrc : ∀ s ∈ A ++ sj :: B, ∀ s' ∈ A ++ sj :: B,
      goJoin dst (goBase s') ≠ s) :
    (copyWithProgress fs p otherDir args).msgs.getLast? =
      some (BatchMsg.resultErr FsError.notFound) ∧
    (∀ s ∈ A ++ B, ∀ c, fsGet fs s = some c →
      fsGet (copyWithProgress fs p otherDir args).fs
        (goJoin dst (goBase s)) = some c) := by
  have hpw : (A ++ sj :: B).Pairwise
      (fun a b => goJoin dst (goBase a) ≠ goJoin dst (goBase b)) :=
    hdst.imp (fun hab hj =>
      hab (goJoin_right_inj dst _ _ (goBase_ne_nil _) (goBase_ne_nil _) hj))
  constructor
  · have herr : (copyJobsLoop p.vfs (resolveSources p otherDir args).2
        (resolveSources p otherDir args).1.length 0
        (resolveSources p otherDir args).1 fs none).2.2 =
        some FsError.notFound := by
      rw [hloc, hres]
      exact copyJobsLoop_err_notFound dst (A ++ sj :: B).length
        (A ++ sj :: B) 0 fs none hsrc (Or.inl rfl)
        (Or.inr ⟨sj, by simp, hmiss⟩)
    simp only [copyWithProgress, herr, terminalOf]
    rw [List.getLast?_concat]
  · intro s hs c hc
    have hsmem : s ∈ A ++ sj :: B := by
      rcases List.mem_append.mp hs with hs | hs
      · exact List.mem_append.mpr (Or.inl hs)
      · exact List.mem_append.mpr (Or.inr (List.mem_cons_of_mem sj hs))
    show fsGet (copyJobsLoop p.vfs (resolveSources p otherDir args).2
        (resolveSources p otherDir args).1.length 0
        (resolveSources p otherDir args).1 fs none).1
        (goJoin dst (goBase s)) = some c
    rw [hloc, hres]
    exact copyJobsLoop_fs_write dst (A ++ sj :: B).length (A ++ sj :: B)
      hpw hsrc 0 fs none s c hsmem hc

theorem zip_foldl_rest (pre : Path) :
    ∀ (files : List ZipFileRec) (seen : List Path) (es : List Entry),
      (files.foldl (zipStep pre) (seen, es)).2 = es ++ zipRest pre files seen
  | [], seen, es => by simp [zipRest]
  | f :: fs, seen, es => by
      rw [List.foldl_cons]
      show (List.foldl (zipStep pre) (zipStep pre (seen, es) f) fs).2 = _
      simp only [zipStep, zipRest]
      by_cases h1 : hasPre f.name pre = true
      · rw [if_pos h1, if_pos h1]
        by_cases h2 : f.name.drop pre.length = []
        · rw [if_pos h2, if_pos h2]
          exact zip_foldl_rest pre fs seen es
        · rw [if_neg h2, if_neg h2]
          cases h3 : (f.name.drop pre.length).findIdx? (fun c => c == '/') with
          | some idx =>
              simp only []
              by_cases h4 : seen.contains ((f.name.drop pre.length).take idx)
              · rw [if_pos h4, if_pos h4]
                exact zip_foldl_rest pre fs seen es
              · rw [if_neg h4, if_neg h4]
                rw [zip_foldl_rest pre fs _ _]
                simp
          | none =>
              simp only []
              rw [zip_foldl_rest pre fs _ _]
              simp
      · rw [if_neg h1, if_neg h1]
        exact zip_foldl_rest pre fs seen es

theorem zipFileClause_cons (pre : Path) (f : ZipFileRec)
    (fs : List ZipFileRec) (e : Entry) :
    zipFileClause pre (f :: fs) e ↔
      ((hasPre f.name pre = true ∧ f.name.drop pre.length ≠ [] ∧
        (f.name.drop pre.length).findIdx? (fun c => c == '/') = none ∧
        e = Entry.mk f.name false) ∨ zipFileClause pre fs e) := by
  unfold zipFileClause
  constructor
  · rintro ⟨g, hg, hp⟩
    rcases List.mem_cons.mp hg with rfl | hg
    · exact Or.inl hp
    · exact Or.inr ⟨g, hg, hp⟩
  · rintro (hp | ⟨g, hg, hp⟩)
    · exact ⟨f, List.mem_cons_self f fs, hp⟩
    · exact ⟨g, List.mem_cons_of_mem f hg, hp⟩

theorem zipDirClause_cons (pre : Path) (f : ZipFileRec)
    (fs : List ZipFileRec) (e : Entry) :
    zipDirClause pre (f :: fs) e ↔
      ((∃ idx, hasPre f.name pre = true ∧
        (f.name.drop pre.length).findIdx? (fun c => c == '/') = some idx ∧
        e = Entry.mk ((f.name.drop pre.length).take idx) true) ∨
        zipDirClause pre fs e) := by
  unfold zipDirClause
  constructor
  · rintro ⟨g, hg, hp⟩
    rcases List.mem_cons.mp hg with rfl | hg
    · exact Or.inl hp
    · exact Or.inr ⟨g, hg, hp⟩
  · rintro (hp | ⟨g, hg, hp⟩)
    · exact ⟨f, List.mem_cons_self f fs, hp⟩
    · exact ⟨g, List.mem_cons_of_mem f hg, hp⟩

theorem zipDirClause_eta (pre : Path) (files : List ZipFileRec) (e : Entry)
    (h : zipDirClause pre files e) : e = Entry.mk e.name true := by
  obtain ⟨f, _, idx, _, _, rfl⟩ := h
  rfl

theorem zipRest_mem (pre : Path) :
    ∀ (files : List ZipFileRec) (seen : List Path) (e : Entry),
      e ∈ zipRest pre files seen ↔
        (zipFileClause pre files e ∨
          (zipDirClause pre files e ∧ e.name ∉ seen))
  | [], seen, e => by
      simp [zipRest, zipFileClause, zipDirClause]
  | f :: fs, seen, e => by
      simp only [zipRest]
      rw [zipFileClause_cons, zipDirClause_cons]
      by_cases h1 : hasPre f.name pre = true
      · rw [if_pos h1]
        by_cases h2 : f.name.drop pre.length = []
        · rw [if_pos h2]
          rw [zipRest_mem pre fs seen e]
          simp [h2]
        · rw [if_neg h2]
          cases h3 : (f.name.drop pre.length).findIdx? (fun c => c == '/') with
          | some idx =>
              simp only []
              have hFf : ¬(hasPre f.name pre = true ∧
                  f.name.drop pre.length ≠ [] ∧
                  (some idx : Option Nat) = none ∧
                  e = Entry.mk f.name false) := by
                rintro ⟨-, -, hn, -⟩
                exact Option.noConfusion hn
              by_cases h4 : seen.contains ((f.name.drop pre.length).take idx)
              · rw [if_pos h4]
                rw [zipRest_mem pre fs seen e]
                have hseen : (f.name.drop pre.length).take idx ∈ seen := by
                  simpa using h4
                constructor
                · rintro (hfile | ⟨hdir, hns⟩)
                  · exact Or.inl (Or.inr hfile)
                  · exact Or.inr ⟨Or.inr hdir, hns⟩
                · rintro ((hf | hfile) | ⟨hd | hdir, hns⟩)
                  · exact absurd hf hFf
                  · exact Or.inl hfile
                  · obtain ⟨i2, -, hi2, he⟩ := hd
                    injection hi2 with hi2
                    subst hi2
                    rw [he] at hns
                    exact absurd hseen hns
                  · exact Or.inr ⟨hdir, hns⟩
              · rw [if_neg h4]
                rw [List.mem_cons, zipRest_mem pre fs _ e]
                have hnseen :
                    (f.name.drop pre.length).take idx ∉ seen := by
                  simpa using h4
                constructor
                · rintro (he | hfile | ⟨hdir, hns⟩)
                  · refine Or.inr ⟨Or.inl ⟨idx, h1, rfl, he⟩, ?_⟩
                    rw [he]
                    exact hnseen
                  · exact Or.inl (Or.inr hfile)
                  · exact Or.inr ⟨Or.inr hdir,
                      fun hm => hns (List.mem_cons_of_mem _ hm)⟩
                · rintro ((hf | hfile) | ⟨hd | hdir, hns⟩)
                  · exact absurd hf hFf
                  · exact Or.inr (Or.inl hfile)
                  · obtain ⟨i2, -, hi2, he⟩ := hd
                    injection hi2 with hi2
                    subst hi2
                    exact Or.inl he
                  · by_cases he :
                        e = Entry.mk ((f.name.drop pre.length).take idx) true
                    · exact Or.inl he
                    · refine Or.inr (Or.inr ⟨hdir, fun hm => ?_⟩)
                      rcases List.mem_cons.mp hm with hed | hm
                      · have he2 : e =
                            Entry.mk ((f.name.drop pre.length).take idx)
                              true := by
                          have h5 := zipDirClause_eta pre fs e hdir
                          rw [hed] at h5
                          exact h5
                        exact he he2
                      · exact hns hm
          | none =>
              simp only []
              rw [List.mem_cons, zipRest_mem pre fs seen e]
              constructor
              · rintro (he | hfile | ⟨hdir, hns⟩)
                · exact Or.inl (Or.inl ⟨h1, h2, by trivial, he⟩)
                · exact Or.inl (Or.inr hfile)
                · exact Or.inr ⟨Or.inr hdir, hns⟩
              · rintro ((⟨-, -, -, he⟩ | hfile) | ⟨hd | hdir, hns⟩)
                · exact Or.inl he
                · exact Or.inr (Or.inl hfile)
                · obtain ⟨i2, -, hi2, -⟩ := hd
                  exact Option.noConfusion hi2
                · exact Or.inr (Or.inr ⟨hdir, hns⟩)
      · rw [if_neg h1]
        rw [zipRest_mem pre fs seen e]
        simp [h1]

theorem zipRest_dir_nodup (pre : Path) :
    ∀ (files : List ZipFileRec) (seen : List Path),
      ((((zipRest pre files seen).filter (fun e => e.isDir)).map
          (fun e => e.name)).Nodup ∧
        ∀ n ∈ ((zipRest pre files seen).filter (fun e => e.isDir)).map
          (fun e => e.name), n ∉ seen)
  | [], seen => by simp [zipRest]
  | f :: fs, seen => by
      simp only [zipRest]
      by_cases h1 : hasPre f.name pre = true
      · rw [if_pos h1]
        by_cases h2 : f.name.drop pre.length = []
        · rw [if_pos h2]
          exact zipRest_dir_nodup pre fs seen
        · rw [if_neg h2]
          cases h3 : (f.name.drop pre.length).findIdx? (fun c => c == '/') with
          | some idx =>
              simp only []
              by_cases h4 : seen.contains ((f.name.drop pre.length).take idx)
              · rw [if_pos h4]
                exact zipRest_dir_nodup pre fs seen
              · rw [if_neg h4]
                have ih := zipRest_dir_nodup pre fs
                  ((f.name.drop pre.length).take idx :: seen)
                have hnseen : (f.name.drop pre.length).take idx ∉ seen := by
                  simpa using h4
                rw [List.filter_cons, if_pos (by rfl), List.map_cons]
                constructor
                · rw [List.nodup_cons]
                  refine ⟨fun hmem => ?_, ih.1⟩
                  exact (ih.2 _ hmem) (List.mem_cons_self _ _)
                · intro n hn
                  rcases List.mem_cons.mp hn with rfl | hn
                  · exact hnseen
                  · intro hns
                    exact (ih.2 n hn) (List.mem_cons_of_mem _ hns)
          | none =>
              simp only []
              rw [List.filter_cons, if_neg (by simp)]
              exact zipRest_dir_nodup pre fs seen
      · rw [if_neg h1]
        exact zipRest_dir_nodup pre fs seen

theorem zip_readDir_mem (z : ZipVFS) (dir : Path) (e : Entry) :
    e ∈ z.readDir dir ↔ zipDerived z.files (archRel z.filename dir) e := by
  show e ∈ (z.files.foldl
    (zipStep (trimPre dir (z.filename ++ ['/']) ++ ['/'])) ([], [])).2 ↔ _
  rw [zip_foldl_rest, List.nil_append, zipRest_mem]
  unfold zipDerived archRel
  simp

theorem zip_readDir_dir_nodup (z : ZipVFS) (dir : Path) :
    ((((z.readDir dir).filter (fun e => e.isDir)).map
      (fun e => e.name))).Nodup := by
  show (((z.files.foldl
      (zipStep (trimPre dir (z.filename ++ ['/']) ++ ['/'])) ([], [])).2.filter
      (fun e => e.isDir)).map (fun e => e.name)).Nodup
  rw [zip_foldl_rest, List.nil_append]
  exact (zipRest_dir_nodup _ z.files []).1

theorem tar_entry_some (pre : Path) (a : Path × TarHeader) (e : Entry) :
    ((if hasPre a.1 pre = true then
        if (a.1.drop pre.length).contains '/' = true then none
        else some (Entry.mk (goBase a.1) a.2.isDir)
      else none) = some e) ↔
      (hasPre a.1 pre = true ∧ (a.1.drop pre.length).contains '/' = false ∧
        e = Entry.mk (goBase a.1) a.2.isDir) := by
  by_cases h1 : hasPre a.1 pre = true
  · rw [if_pos h1]
    by_cases h2 : (a.1.drop pre.length).contains '/' = true
    · rw [if_pos h2]
      constructor
      · intro he
        exact Option.noConfusion he
      · rintro ⟨-, hc, -⟩
        rw [h2] at hc
        exact Bool.noConfusion hc
    · simp only [if_neg h2, Option.some.injEq]
      constructor
      · intro he
        exact ⟨h1, by simpa using h2, he.symm⟩
      · rintro ⟨-, -, he⟩
        exact he.symm
  · simp [h1]

theorem tar_readDir_mem (t : TarVFS) (dir : Path) (e : Entry) :
    e ∈ t.readDir dir ↔ tarDerived t.entries (archRel t.filename dir) e := by
  show e ∈ t.entries.filterMap _ ↔ _
  rw [List.mem_filterMap]
  unfold tarDerived archRel
  constructor
  · rintro ⟨a, ha, hg⟩
    exact ⟨a, ha, (tar_entry_some _ a e).mp hg⟩
  · rintro ⟨a, ha, hp⟩
    exact ⟨a, ha, (tar_entry_some _ a e).mpr hp⟩

theorem lookup_of_mem_nodup :
    ∀ (l : List (Path × TarHeader)), (l.map Prod.fst).Nodup →
      ∀ (k : Path) (hdr : TarHeader), (k, hdr) ∈ l → l.lookup k = some hdr
  | [], _, k, hdr, hm => by simp at hm
  | (k', h') :: rest, hnd, k, hdr, hm => by
      rw [List.map_cons, List.nodup_cons] at hnd
      rcases List.mem_cons.mp hm with heq | hmem
      · injection heq with hk hh
        subst hk
        subst hh
        simp [List.lookup]
      · have hne : (k == k') = false := by
          simp only [beq_eq_false_iff_ne, ne_eq]
          rintro rfl
          exact hnd.1 (List.mem_map.mpr ⟨(k, hdr), hmem, rfl⟩)
        simp only [List.lookup, hne]
        exact lookup_of_mem_nodup rest hnd.2 k hdr hmem

/-- C2 fails as stated: the tar backend does not synthesize directory
entries. For the container `/a.tar` whose only indexed key is the deeper
`d/e/f`, the spec's derivation of `ListDirectory("d")` synthesizes the
directory entry `e`, but `tarVFS.ReadDir` skips the key and returns
nothing. -/
theorem C2_tar_misses_synthesized_dirs :
    tarEx.readDir (str "d") ≠
      specListDirectory (tarEx.entries.map (fun e => (e.1, e.2.isDir)))
        (str "d") ∧
    tarEx.readDir (str "d") = [] ∧
    specListDirectory (tarEx.entries.map (fun e => (e.1, e.2.isDir)))
      (str "d") = [Entry.mk (str "e") true] := by
  decide

/-- C2 amended: relative to the requested directory with the mount anchor
prefix stripped, the zip listing contains exactly the derived entries —
for every key with prefix `rel ++ "/"`, a file entry (named by the full
key) when the remainder is non-empty and separator-free, and a synthesized
directory entry named by the remainder's first segment when it contains a
separator — with synthesized directory names de-duplicated; the tar
listing contains exactly the separator-free remainders (entries named by
`Base(key)`) and synthesizes nothing from deeper keys. -/
theorem C2_listing_derivation :
    (∀ (z : ZipVFS) (dir : Path) (e : Entry),
      e ∈ z.readDir dir ↔ zipDerived z.files (archRel z.filename dir) e) ∧
    (∀ (z : ZipVFS) (dir : Path),
      (((z.readDir dir).filter (fun e => e.isDir)).map
        (fun e => e.name)).Nodup) ∧
    (∀ (t : TarVFS) (dir : Path) (e : Entry),
      e ∈ t.readDir dir ↔ tarDerived t.entries (archRel t.filename dir) e) :=
  ⟨zip_readDir_mem, zip_readDir_dir_nodup, tar_readDir_mem⟩

/-- C3 fails as stated: the zip listing of `/a.zip/d` synthesizes the
directory entry `e` with `isDir = true`, but a separate `Stat` on that
entry's path — full, container-relative, or bare — returns the not-exist
error instead of agreeing, because the container holds no record named
`d/e`. -/
theorem C3_zip_synthesized_dir_stat_fails :
    zipEx.readDir (str "/a.zip/d") = [Entry.mk (str "e") true] ∧
    zipEx.stat (goJoin (str "/a.zip/d") (str "e")) =
      Except.error FsError.notFound ∧
    zipEx.stat (str "d/e") = Except.error FsError.notFound ∧
    zipEx.stat (str "e") = Except.error FsError.notFound :=
  ⟨by decide, rfl, rfl, rfl⟩

/-- C3 amended: archive listings return only direct children — every tar
entry comes from a key whose remainder is separator-free, every zip entry
is such a key's file entry or a first-segment directory entry, never a
deeper descendant. The flag-versus-Stat agreement holds for tar entries
through the key they come from (keys distinct), but fails for zip
synthesized directories: `Stat` on the synthesized entry's path returns
not-found whenever no record carries that exact name. -/
theorem C3_children_and_stat :
    (∀ (t : TarVFS) (dir : Path) (e : Entry), e ∈ t.readDir dir →
      tarDerived t.entries (archRel t.filename dir) e) ∧
    (∀ (z : ZipVFS) (dir : Path) (e : Entry), e ∈ z.readDir dir →
      zipDerived z.files (archRel z.filename dir) e) ∧
    (∀ (t : TarVFS), (t.entries.map Prod.fst).Nodup →
      ∀ (dir : Path) (e : Entry), e ∈ t.readDir dir →
        ∃ k hdr, (k, hdr) ∈ t.entries ∧ t.stat k = Except.ok hdr ∧
          e.isDir = hdr.isDir) ∧
    (∀ (z : ZipVFS) (dir : Path) (e : Entry), e ∈ z.readDir dir →
      e.isDir = true → (∀ f ∈ z.files, f.name ≠ goJoin dir e.name) →
      z.stat (goJoin dir e.name) = Except.error FsError.notFound) := by
  refine ⟨fun t dir e he => (tar_readDir_mem t dir e).mp he,
    fun z dir e he => (zip_readDir_mem z dir e).mp he, ?_, ?_⟩
  · intro t hnd dir e he
    obtain ⟨k, hk, -, -, hee⟩ := (tar_readDir_mem t dir e).mp he
    refine ⟨k.1, k.2, hk, ?_, by rw [hee]⟩
    unfold TarVFS.stat
    rw [lookup_of_mem_nodup t.entries hnd k.1 k.2 hk]
  · intro z dir e _ _ hnone
    have hfind : z.files.find?
        (fun f => f.name == goJoin dir e.name) = none :=
      List.find?_eq_none.mpr (fun f hf => by simpa using hnone f hf)
    simp only [ZipVFS.stat, hfind]

/-- Closed instance of `C3_children_and_stat` at the tar fixture with the
single key `d/x`: the listed entry `x` has a matching indexed header that
`Stat` returns with the same directory flag. -/
theorem C3_children_and_stat_witness :
    ∃ k hdr, (k, hdr) ∈ tarEx2.entries ∧ tarEx2.stat k = Except.ok hdr ∧
      (Entry.mk (str "x") false).isDir = hdr.isDir :=
  C3_children_and_stat.2.2.1 tarEx2 (by decide) (str "/b.tar/d")
    (Entry.mk (str "x") false) (by decide)

/-- Closed instance of `C4_copy_join_all_first_error`: of the three
selected sources `/s/a`, `/s/x`, `/s/b` only `/s/x` is missing; the two
others arrive at `/d` with their contents and the batch reports the
not-found error. -/
theorem C4_copy_join_all_first_error_witness :
    (copyWithProgress fsTwo panelThree (str "/d") []).msgs.getLast? =
      some (BatchMsg.resultErr FsError.notFound) ∧
    (∀ s ∈ [str "/s/a"] ++ [str "/s/b"], ∀ c, fsGet fsTwo s = some c →
      fsGet (copyWithProgress fsTwo panelThree (str "/d") []).fs
        (goJoin (str "/d") (goBase s)) = some c) :=
  C4_copy_join_all_first_error fsTwo panelThree (str "/d") []
    [str "/s/a"] [str "/s/b"] (str "/s/x") (str "/d")
    (by decide) rfl (by decide) (by decide) (by decide)

end Ngt
